import Mathlib

/-!
Shallow embedding of `peg-game.py`: a triangular peg-solitaire board, jump
moves, and the backtracking solver.  Python lists of booleans become
`List Bool`; Python ints become `Int` where negative values are possible
(hole indices inside `Move`, row/col coordinates) and `Nat` where the source
only ever produces non-negative values (counts, loop ranges).  Mutation of
`Board.state` becomes explicit state passing: `apply_move` returns the
boolean result together with the updated board.  The recursion of
`_solve_worker` is bounded by an explicit fuel argument; the entry point
`solve` supplies `state.length` fuel, which is always sufficient because
every applied jump removes a peg.
-/

namespace PegGame

/-- Move: an immutable triple of hole indices (start, jumped, destination),
mirroring the Python `Move` class. -/
structure Move where
  start : Int
  jumped : Int
  destination : Int
deriving DecidableEq, Repr

/-- Board: triangular-grid geometry and peg-state container, mirroring the
Python `Board` class (`num_rows`, `num_holes`, `state`). -/
structure Board where
  num_rows : Nat
  num_holes : Nat
  state : List Bool
deriving DecidableEq, Repr

/-- Move.is_valid: `0 <= start < len(board.state)` (likewise jumped and
destination), start and jumped occupied, destination empty. -/
def Move.is_valid (m : Move) (board : Board) : Bool :=
  decide (0 ≤ m.start) && decide (m.start < (board.state.length : Int)) &&
  decide (0 ≤ m.jumped) && decide (m.jumped < (board.state.length : Int)) &&
  decide (0 ≤ m.destination) && decide (m.destination < (board.state.length : Int)) &&
  board.state.getD m.start.toNat false &&
  board.state.getD m.jumped.toNat false &&
  !(board.state.getD m.destination.toNat false)

/-- Board.__init__: `num_holes = num_rows*(num_rows+1)//2`, all holes
occupied except `empty_hole`. -/
def Board.init (num_rows : Nat) (empty_hole : Nat) : Board :=
  { num_rows := num_rows
    num_holes := num_rows * (num_rows + 1) / 2
    state := (List.replicate (num_rows * (num_rows + 1) / 2) true).set empty_hole false }

/-- The `while index >= (row + 1) * (row + 2) // 2: row += 1` loop of
`get_row_col`, with explicit fuel (`index + 1` steps always suffice). -/
def findRow (index : Nat) : Nat → Nat → Nat
  | 0, row => row
  | fuel + 1, row =>
    if (row + 1) * (row + 2) / 2 ≤ index then findRow index fuel (row + 1) else row

/-- Board.get_row_col: convert a hole index to `(row, col)`; `none` for an
out-of-range index. -/
def Board.get_row_col (b : Board) (index : Int) : Option (Int × Int) :=
  if index < 0 ∨ (b.num_holes : Int) ≤ index then none
  else
    let row := findRow index.toNat (index.toNat + 1) 0
    let start_of_row : Int := (row : Int) * ((row : Int) + 1) / 2
    some ((row : Int), index - start_of_row)

/-- Board.get_index: convert `(row, col)` to a hole index; `-1` when the
coordinates are outside the triangle. -/
def Board.get_index (b : Board) (row col : Int) : Int :=
  if row < 0 ∨ (b.num_rows : Int) ≤ row ∨ col < 0 ∨ row < col then -1
  else row * (row + 1) / 2 + col

/-- The fixed direction list of `get_valid_moves`. -/
def directions : List (Int × Int) :=
  [(-2, -2), (-2, 0), (0, -2), (0, 2), (2, 0), (2, 2)]

/-- Board.get_valid_moves: for every occupied `start` hole, try the six jump
directions; the jumped hole must exist and be occupied, the destination must
exist and be empty.  The nested `for` loops appending to `moves` become
nested left folds appending to the accumulator. -/
def Board.get_valid_moves (b : Board) : List Move :=
  (List.range b.num_holes).foldl
    (fun moves start =>
      if b.state.getD start false = false then moves
      else
        match b.get_row_col (start : Int) with
        | none => moves
        | some (start_row, start_col) =>
          directions.foldl
            (fun moves d =>
              let jumped := b.get_index (start_row + d.1 / 2) (start_col + d.2 / 2)
              let dest := b.get_index (start_row + d.1) (start_col + d.2)
              if jumped ≠ -1 ∧ dest ≠ -1 ∧
                  b.state.getD jumped.toNat false = true ∧
                  b.state.getD dest.toNat false = false then
                moves ++ [⟨(start : Int), jumped, dest⟩]
              else moves)
            moves)
    []

/-- Board.apply_move: if the move is valid, clear start and jumped, set the
destination and return `true`; otherwise return `false` with the board
unchanged. -/
def Board.apply_move (b : Board) (m : Move) : Bool × Board :=
  if m.is_valid b then
    (true,
      { b with
        state :=
          ((b.state.set m.start.toNat false).set m.jumped.toNat false).set
            m.destination.toNat true })
  else (false, b)

/-- Board.is_game_over: no more valid moves. -/
def Board.is_game_over (b : Board) : Bool :=
  b.get_valid_moves.isEmpty

/-- Board.pegs_remaining: count of occupied holes. -/
def Board.pegs_remaining (b : Board) : Nat :=
  b.state.count true

/-- Best-result update step shared by the reductions in `Solver.solve` and
`Solver._solve_worker`: strictly fewer pegs wins; on equal pegs a strictly
shorter move sequence wins.  The first component models the Python
`float('inf')` initial best peg count as `none` (any candidate beats it). -/
def bestStep : Option Nat × List Move → Nat × List Move → Option Nat × List Move
  | (none, _), res => (some res.1, res.2)
  | (some best_pegs, best_moves), res =>
    if res.1 < best_pegs then (some res.1, res.2)
    else if res.1 = best_pegs then
      (if res.2.length < best_moves.length then (some best_pegs, res.2)
       else (some best_pegs, best_moves))
    else (some best_pegs, best_moves)

/-- Solver._solve_worker: recursive backtracking on a private board.  The
Python save/apply/recurse/restore sequence becomes recursion on the board
produced by `apply_move` while the original board is reused for the next
sibling.  The extra fuel argument bounds the recursion depth; callers pass
at least `pegs_remaining` fuel, which is enough because each level removes
one peg. -/
def solve_worker : Nat → Board → List Move → Nat × List Move
  | 0, board, current_move_sequence => (board.pegs_remaining, current_move_sequence)
  | fuel + 1, board, current_move_sequence =>
    if board.is_game_over then (board.pegs_remaining, current_move_sequence)
    else
      let moves := board.get_valid_moves
      if moves = [] then (board.pegs_remaining, current_move_sequence)
      else
        let r :=
          moves.foldl
            (fun acc move =>
              bestStep acc
                (solve_worker fuel (board.apply_move move).2
                  (current_move_sequence ++ [move])))
            (none, current_move_sequence)
        (r.1.getD board.pegs_remaining, r.2)

/-- Solver.solve, threading the caller's board through the call to make the
frame effect visible: the board component of the result is the caller's
board object as it stands after the call.  Each first-ply move gets a fresh
board (`Board(num_rows, 0)` whose state is overwritten with a copy of the
caller's state), the move is applied to the copy, and the sequential worker
runs on it; the worker results are reduced with `bestStep`.  Worker fuel is
`state.length`, always sufficient. -/
def solve_st (b : Board) : (Nat × List Move) × Board :=
  let initial_moves := b.get_valid_moves
  if initial_moves = [] then ((b.pegs_remaining, []), b)
  else
    let results :=
      initial_moves.map fun move =>
        let next_board : Board :=
          { num_rows := b.num_rows
            num_holes := b.num_rows * (b.num_rows + 1) / 2
            state := b.state }
        let next_board := (next_board.apply_move move).2
        solve_worker b.state.length next_board [move]
    let r := results.foldl bestStep (none, [])
    ((r.1.getD b.pegs_remaining, r.2), b)

/-- Solver.solve: the `(pegs_remaining, moves)` pair returned to the caller. -/
def solve (b : Board) : Nat × List Move :=
  (solve_st b).1

/-- Well-formedness maintained by every board the program constructs:
`num_holes` is the triangular number of `num_rows` and the state list has
exactly `num_holes` entries. -/
def Board.WF (b : Board) : Prop :=
  b.num_holes = b.num_rows * (b.num_rows + 1) / 2 ∧ b.num_holes = b.state.length

instance (b : Board) : Decidable b.WF := by
  unfold Board.WF; infer_instance

/-! Section: Triangular-number arithmetic -/

/-- Triangular number `n*(n+1)/2`, the hole count of an `n`-row board and
the index of the first hole of row `n`. -/
def tri (n : Nat) : Nat := n * (n + 1) / 2

/-- The candidate move examined by `get_valid_moves` for one occupied start
hole and one direction. -/
def moveCandidate (b : Board) (start : Nat) (start_row start_col : Int)
    (d : Int × Int) : Option Move :=
  let jumped := b.get_index (start_row + d.1 / 2) (start_col + d.2 / 2)
  let dest := b.get_index (start_row + d.1) (start_col + d.2)
  if jumped ≠ -1 ∧ dest ≠ -1 ∧ b.state.getD jumped.toNat false = true ∧
      b.state.getD dest.toNat false = false then
    some ⟨(start : Int), jumped, dest⟩
  else none

/-- All moves `get_valid_moves` produces for one start hole. -/
def movesFrom (b : Board) (start : Nat) : List Move :=
  if b.state.getD start false = false then []
  else
    match b.get_row_col (start : Int) with
    | none => []
    | some (start_row, start_col) =>
      directions.filterMap (moveCandidate b start start_row start_col)

/-- Spec-side predicate, following claim C2's wording: the start is an
occupied hole, the midpoint hole (start's row/col plus half the direction
offset) exists and is occupied, and the destination hole (start's row/col
plus the offset) exists and is empty, for one of the six directions. -/
def IsJumpMove (b : Board) (m : Move) : Prop :=
  ∃ start : Nat, start < b.num_holes ∧ b.state.getD start false = true ∧
    ∃ start_row start_col : Int,
      b.get_row_col (start : Int) = some (start_row, start_col) ∧
      ∃ d ∈ directions,
        b.get_index (start_row + d.1 / 2) (start_col + d.2 / 2) ≠ -1 ∧
        b.get_index (start_row + d.1) (start_col + d.2) ≠ -1 ∧
        b.state.getD (b.get_index (start_row + d.1 / 2) (start_col + d.2 / 2)).toNat false = true ∧
        b.state.getD (b.get_index (start_row + d.1) (start_col + d.2)).toNat false = false ∧
        m = ⟨(start : Int), b.get_index (start_row + d.1 / 2) (start_col + d.2 / 2),
          b.get_index (start_row + d.1) (start_col + d.2)⟩

/-- Direction of a move, recovered from the board geometry: destination
coordinates minus start coordinates. -/
def moveDir (b : Board) (m : Move) : Int × Int :=
  match b.get_row_col m.start, b.get_row_col m.destination with
  | some (sr, sc), some (dr, dc) => (dr - sr, dc - sc)
  | _, _ => (0, 0)

/-- Position of a move's direction in the fixed direction list. -/
def dirIndex (b : Board) (m : Move) : Nat :=
  directions.indexOf (moveDir b m)

/-- The ordering claim C2 states: ascending by start index, then by the
position of the direction in the fixed direction list. -/
def moveOrd (b : Board) (m₁ m₂ : Move) : Prop :=
  m₁.start < m₂.start ∨ (m₁.start = m₂.start ∧ dirIndex b m₁ < dirIndex b m₂)

/-- Spec-side variant of `bestStep` following claim C7's wording: update
the best only when the candidate's peg count is strictly smaller; a tie
keeps the first-found result and discards the candidate. -/
def ffStep : Option Nat × List Move → Nat × List Move → Option Nat × List Move
  | (none, _), res => (some res.1, res.2)
  | (some best_pegs, best_moves), res =>
    if res.1 < best_pegs then (some res.1, res.2)
    else (some best_pegs, best_moves)

/-- Variant of `solve_worker` whose reduction uses `ffStep` instead of
`bestStep`; claim C7 asserts the two agree. -/
def solve_worker_ff : Nat → Board → List Move → Nat × List Move
  | 0, board, current_move_sequence => (board.pegs_remaining, current_move_sequence)
  | fuel + 1, board, current_move_sequence =>
    if board.is_game_over then (board.pegs_remaining, current_move_sequence)
    else
      let moves := board.get_valid_moves
      if moves = [] then (board.pegs_remaining, current_move_sequence)
      else
        let r :=
          moves.foldl
            (fun acc move =>
              ffStep acc
                (solve_worker_ff fuel (board.apply_move move).2
                  (current_move_sequence ++ [move])))
            (none, current_move_sequence)
        (r.1.getD board.pegs_remaining, r.2)

/-- Instrumented `solve_worker`: same recursion, but returning the list of
terminal `(pegs_remaining, move_sequence)` results in the order the
depth-first search reaches them. -/
def solve_worker_trace : Nat → Board → List Move → List (Nat × List Move)
  | 0, board, current_move_sequence => [(board.pegs_remaining, current_move_sequence)]
  | fuel + 1, board, current_move_sequence =>
    if board.is_game_over then [(board.pegs_remaining, current_move_sequence)]
    else
      board.get_valid_moves.foldl
        (fun acc move =>
          acc ++ solve_worker_trace fuel (board.apply_move move).2
            (current_move_sequence ++ [move]))
        []

/-- Number of terminal states of the search tree below a board, counted
over every branch with no short-circuiting. -/
def leafCount : Nat → Board → Nat
  | 0, _ => 1
  | fuel + 1, board =>
    if board.is_game_over then 1
    else (board.get_valid_moves.map (fun move => leafCount fuel (board.apply_move move).2)).sum

/-- Replay of a move sequence from a board: conjunction of all the
`apply_move` results, together with the final board. -/
def replay : Board → List Move → Bool × Board
  | b, [] => (true, b)
  | b, m :: ms =>
    let r := b.apply_move m
    let rest := replay r.2 ms
    (r.1 && rest.1, rest.2)

theorem two_mul_tri (n : Nat) : 2 * tri n = n * (n + 1) := by
  have h : 2 ∣ n * (n + 1) := (Nat.even_mul_succ_self n).two_dvd
  unfold tri
  omega

theorem tri_succ (n : Nat) : tri (n + 1) = tri n + (n + 1) := by
  have h1 := two_mul_tri n
  have h2 := two_mul_tri (n + 1)
  have : (n + 1) * (n + 1 + 1) = n * (n + 1) + 2 * (n + 1) := by ring
  omega

theorem tri_mono {a b : Nat} (h : a ≤ b) : tri a ≤ tri b := by
  unfold tri
  exact Nat.div_le_div_right (Nat.mul_le_mul h (by omega))

theorem lt_tri_succ_self (i : Nat) : i < tri (i + 1) := by
  have h := two_mul_tri (i + 1)
  have : 2 * (i + 1) ≤ (i + 1) * (i + 1 + 1) := by nlinarith
  omega

theorem tri_row_unique {i r r' : Nat}
    (h1 : tri r ≤ i) (h2 : i < tri (r + 1))
    (h3 : tri r' ≤ i) (h4 : i < tri (r' + 1)) : r = r' := by
  rcases Nat.lt_trichotomy r r' with h | h | h
  · have := tri_mono (show r + 1 ≤ r' by omega)
    omega
  · exact h
  · have := tri_mono (show r' + 1 ≤ r by omega)
    omega

theorem findRow_go {i : Nat} :
    ∀ fuel row, tri row ≤ i → i < tri (row + fuel) →
      tri (findRow i fuel row) ≤ i ∧ i < tri (findRow i fuel row + 1) := by
  intro fuel
  induction fuel with
  | zero =>
    intro row h1 h2
    rw [Nat.add_zero] at h2
    omega
  | succ n ih =>
    intro row h1 h2
    rw [findRow]
    by_cases h : (row + 1) * (row + 2) / 2 ≤ i
    · have hc : tri (row + 1) ≤ i := by
        unfold tri
        have : row + 1 + 1 = row + 2 := rfl
        rw [this]
        exact h
      simp only [h, if_true]
      refine ih (row + 1) hc ?_
      have : row + 1 + n = row + (n + 1) := by omega
      rw [this]
      exact h2
    · have hc : ¬ tri (row + 1) ≤ i := by
        unfold tri
        have : row + 1 + 1 = row + 2 := rfl
        rw [this]
        exact h
      simp only [h, if_false]
      exact ⟨h1, by omega⟩

/-- The row computed by `get_row_col` is the unique row whose triangular
range contains the index. -/
theorem findRow_spec (i : Nat) :
    tri (findRow i (i + 1) 0) ≤ i ∧ i < tri (findRow i (i + 1) 0 + 1) := by
  refine findRow_go (i + 1) 0 (by simp [tri]) ?_
  simpa using lt_tri_succ_self i

/-! Section: Characterizing get_row_col and get_index -/

theorem int_tri_cast (n : Nat) : ((n : Int) * ((n : Int) + 1)) / 2 = (tri n : Int) := by
  have h1 : ((n : Int) * ((n : Int) + 1)) = ((2 * tri n : Nat) : Int) := by
    rw [two_mul_tri]
    push_cast
    ring
  rw [h1]
  push_cast
  rw [mul_comm (2 : Int)]
  exact Int.mul_ediv_cancel _ (by norm_num)

/-- Computation rule for `get_row_col` on an in-range index: it returns the
unique `(row, col)` with `tri row + col = i` and `col ≤ row`. -/
theorem get_row_col_eq (b : Board) (i : Nat) (h : i < b.num_holes) :
    b.get_row_col (i : Int) =
      some ((findRow i (i + 1) 0 : Int), ((i - tri (findRow i (i + 1) 0) : Nat) : Int)) := by
  obtain ⟨h1, _⟩ := findRow_spec i
  unfold Board.get_row_col
  have hc : ¬ ((i : Int) < 0 ∨ (b.num_holes : Int) ≤ (i : Int)) := by
    push_neg
    constructor
    · positivity
    · exact_mod_cast h
  rw [if_neg hc]
  simp only [Int.toNat_natCast]
  rw [int_tri_cast]
  congr 1
  congr 1
  omega

theorem get_row_col_neg (b : Board) (i : Int)
    (h : i < 0 ∨ (b.num_holes : Int) ≤ i) : b.get_row_col i = none := by
  unfold Board.get_row_col
  rw [if_pos h]

/-- Computation rule for `get_index` on in-range coordinates. -/
theorem get_index_eq (b : Board) (r c : Nat) (hr : r < b.num_rows) (hc : c ≤ r) :
    b.get_index (r : Int) (c : Int) = ((tri r + c : Nat) : Int) := by
  unfold Board.get_index
  have hcnd : ¬ ((r : Int) < 0 ∨ (b.num_rows : Int) ≤ (r : Int) ∨ (c : Int) < 0 ∨
      (r : Int) < (c : Int)) := by
    push_neg
    refine ⟨by positivity, by exact_mod_cast hr, by positivity, by exact_mod_cast hc⟩
  rw [if_neg hcnd, int_tri_cast]
  push_cast
  ring

theorem get_index_neg (b : Board) (r c : Int)
    (h : r < 0 ∨ (b.num_rows : Int) ≤ r ∨ c < 0 ∨ r < c) :
    b.get_index r c = -1 := by
  unfold Board.get_index
  rw [if_pos h]

/-- Bound on an in-range `get_index` value: it is a valid hole index. -/
theorem tri_add_lt {r c n : Nat} (hr : r < n) (hc : c ≤ r) : tri r + c < tri n := by
  have h1 : tri r + c < tri (r + 1) := by
    rw [tri_succ]
    omega
  have h2 : tri (r + 1) ≤ tri n := tri_mono (by omega)
  omega

/-- Decomposition of an in-range index: `get_row_col` returns natural
coordinates `(r, c)` with `c ≤ r < num_rows`, `tri r + c = i`, and
`get_index` maps them back to `i`. -/
theorem get_row_col_decomp (b : Board) (hgeom : b.num_holes = tri b.num_rows)
    (i : Nat) (h : i < b.num_holes) :
    ∃ r c : Nat, b.get_row_col (i : Int) = some ((r : Int), (c : Int)) ∧
      r < b.num_rows ∧ c ≤ r ∧ tri r + c = i ∧
      b.get_index (r : Int) (c : Int) = (i : Int) := by
  obtain ⟨h1, h2⟩ := findRow_spec i
  set r := findRow i (i + 1) 0 with hr
  refine ⟨r, i - tri r, get_row_col_eq b i h, ?_, ?_, ?_, ?_⟩
  · by_contra hcon
    push_neg at hcon
    have := tri_mono hcon
    rw [← hgeom] at this
    omega
  · rw [tri_succ] at h2
    omega
  · omega
  · have hrn : r < b.num_rows := by
      by_contra hcon
      push_neg at hcon
      have := tri_mono hcon
      rw [← hgeom] at this
      omega
    rw [get_index_eq b r (i - tri r) hrn (by rw [tri_succ] at h2; omega)]
    congr 1
    omega

/-- Round trip the other way: `get_row_col (get_index r c) = (r, c)` for
in-range coordinates. -/
theorem get_row_col_get_index (b : Board) (hgeom : b.num_holes = tri b.num_rows)
    (r c : Nat) (hr : r < b.num_rows) (hc : c ≤ r) :
    b.get_row_col (b.get_index (r : Int) (c : Int)) = some ((r : Int), (c : Int)) := by
  rw [get_index_eq b r c hr hc]
  have hlt : tri r + c < b.num_holes := by
    rw [hgeom]
    exact tri_add_lt hr hc
  rw [get_row_col_eq b (tri r + c) hlt]
  obtain ⟨h1, h2⟩ := findRow_spec (tri r + c)
  have hu : findRow (tri r + c) (tri r + c + 1) 0 = r := by
    refine tri_row_unique h1 h2 (by omega) ?_
    rw [tri_succ]
    omega
  rw [hu]
  have hcc : tri r + c - tri r = c := by omega
  rw [hcc]

/-! Section: List.set and getD helpers -/

theorem getD_set_self (l : List Bool) {i : Nat} (h : i < l.length) (v : Bool) :
    (l.set i v).getD i false = v := by
  rw [List.getD_eq_getElem?_getD, List.getElem?_set_eq_of_lt v h]
  rfl

theorem getD_set_ne (l : List Bool) {i j : Nat} (h : i ≠ j) (v : Bool) :
    (l.set i v).getD j false = l.getD j false := by
  rw [List.getD_eq_getElem?_getD, List.getElem?_set_ne h, ← List.getD_eq_getElem?_getD]

theorem getD_true_lt (l : List Bool) {i : Nat} (h : l.getD i false = true) :
    i < l.length := by
  by_contra hcon
  push_neg at hcon
  rw [List.getD_eq_getElem?_getD, List.getElem?_eq_none hcon] at h
  simp at h

theorem count_true_set (l : List Bool) :
    ∀ i, i < l.length → ∀ v : Bool,
      (l.set i v).count true + (if l.getD i false = true then 1 else 0) =
        l.count true + (if v = true then 1 else 0) := by
  induction l with
  | nil => intro i h v; simp at h
  | cons a t ih =>
    intro i h v
    cases i with
    | zero =>
      rw [List.set_cons_zero, List.getD_cons_zero, List.count_cons, List.count_cons]
      cases a <;> cases v <;> simp
    | succ n =>
      rw [List.set_cons_succ, List.getD_cons_succ, List.count_cons, List.count_cons]
      have hn : n < t.length := by simpa using h
      have h2 := ih n hn v
      omega

/-! Section: Validity of apply_move (claim C1) -/

/-- Unfolding of the `is_valid` boolean into its individual conditions. -/
theorem is_valid_iff (m : Move) (b : Board) :
    m.is_valid b = true ↔
      (0 ≤ m.start ∧ m.start < (b.state.length : Int) ∧
       0 ≤ m.jumped ∧ m.jumped < (b.state.length : Int) ∧
       0 ≤ m.destination ∧ m.destination < (b.state.length : Int) ∧
       b.state.getD m.start.toNat false = true ∧
       b.state.getD m.jumped.toNat false = true ∧
       b.state.getD m.destination.toNat false = false) := by
  unfold Move.is_valid
  simp only [Bool.and_eq_true, decide_eq_true_eq, Bool.not_eq_true']
  tauto

/-- Unfolding of `apply_move` on an invalid move: signal `false`, board
unchanged. -/
theorem apply_move_of_invalid (b : Board) (m : Move) (hv : ¬ m.is_valid b = true) :
    b.apply_move m = (false, b) := by
  unfold Board.apply_move
  rw [if_neg hv]

/-- Effects of `apply_move` on a valid move: signal `true`, geometry fields
unchanged, start and jumped holes cleared, destination set, and every other
hole untouched. -/
theorem apply_move_effects (b : Board) (m : Move) (hv : m.is_valid b = true) :
    (b.apply_move m).1 = true ∧
    (b.apply_move m).2.num_rows = b.num_rows ∧
    (b.apply_move m).2.num_holes = b.num_holes ∧
    (b.apply_move m).2.state.length = b.state.length ∧
    (b.apply_move m).2.state.getD m.start.toNat false = false ∧
    (b.apply_move m).2.state.getD m.jumped.toNat false = false ∧
    (b.apply_move m).2.state.getD m.destination.toNat false = true ∧
    (∀ i : Nat, i ≠ m.start.toNat → i ≠ m.jumped.toNat → i ≠ m.destination.toNat →
      (b.apply_move m).2.state.getD i false = b.state.getD i false) := by
  obtain ⟨h1, h2, h3, h4, h5, h6, hs, hj, hd⟩ := (is_valid_iff m b).mp hv
  have hsN : m.start.toNat < b.state.length := by omega
  have hjN : m.jumped.toNat < b.state.length := by omega
  have hdN : m.destination.toNat < b.state.length := by omega
  have hsd : m.start.toNat ≠ m.destination.toNat := by
    intro hEq
    rw [hEq, hd] at hs
    exact Bool.false_ne_true hs
  have hjd : m.jumped.toNat ≠ m.destination.toNat := by
    intro hEq
    rw [hEq, hd] at hj
    exact Bool.false_ne_true hj
  have happ : b.apply_move m = (true, { b with state := ((b.state.set m.start.toNat false).set m.jumped.toNat false).set m.destination.toNat true }) := by
    unfold Board.apply_move
    rw [if_pos hv]
  rw [happ]
  refine ⟨rfl, rfl, rfl, by simp, ?_, ?_, ?_, ?_⟩
  · show (((b.state.set m.start.toNat false).set m.jumped.toNat false).set m.destination.toNat true).getD m.start.toNat false = false
    rw [getD_set_ne _ (Ne.symm hsd)]
    by_cases hsj : m.start.toNat = m.jumped.toNat
    · rw [hsj, getD_set_self]
      simpa using hjN
    · rw [getD_set_ne _ (Ne.symm hsj), getD_set_self _ hsN]
  · show (((b.state.set m.start.toNat false).set m.jumped.toNat false).set m.destination.toNat true).getD m.jumped.toNat false = false
    rw [getD_set_ne _ (Ne.symm hjd), getD_set_self]
    simpa using hjN
  · show (((b.state.set m.start.toNat false).set m.jumped.toNat false).set m.destination.toNat true).getD m.destination.toNat false = true
    rw [getD_set_self]
    simpa using hdN
  · intro i his hij hid
    show (((b.state.set m.start.toNat false).set m.jumped.toNat false).set m.destination.toNat true).getD i false = b.state.getD i false
    rw [getD_set_ne _ (fun h => hid h.symm), getD_set_ne _ (fun h => hij h.symm),
      getD_set_ne _ (fun h => his h.symm)]

/-- C1: `apply_move` returns `true` exactly when start, jumped and
destination are in-range hole indices, start and jumped are occupied and
the destination is empty; on success it clears start and jumped, sets the
destination and leaves every other hole (and the board geometry)
unchanged; on failure the board is completely unchanged. -/
theorem apply_move_correct (b : Board) (m : Move)
    (hLen : b.num_holes = b.state.length) :
    ((b.apply_move m).1 = true ↔
      (0 ≤ m.start ∧ m.start < (b.num_holes : Int) ∧
       0 ≤ m.jumped ∧ m.jumped < (b.num_holes : Int) ∧
       0 ≤ m.destination ∧ m.destination < (b.num_holes : Int) ∧
       b.state.getD m.start.toNat false = true ∧
       b.state.getD m.jumped.toNat false = true ∧
       b.state.getD m.destination.toNat false = false)) ∧
    ((b.apply_move m).1 = true →
      ((b.apply_move m).2.num_rows = b.num_rows ∧
       (b.apply_move m).2.num_holes = b.num_holes ∧
       (b.apply_move m).2.state.length = b.state.length ∧
       (b.apply_move m).2.state.getD m.start.toNat false = false ∧
       (b.apply_move m).2.state.getD m.jumped.toNat false = false ∧
       (b.apply_move m).2.state.getD m.destination.toNat false = true ∧
       ∀ i : Nat, i ≠ m.start.toNat → i ≠ m.jumped.toNat → i ≠ m.destination.toNat →
         (b.apply_move m).2.state.getD i false = b.state.getD i false)) ∧
    ((b.apply_move m).1 = false → (b.apply_move m).2 = b) := by
  rw [hLen]
  by_cases hv : m.is_valid b = true
  · obtain ⟨hres, heff⟩ := apply_move_effects b m hv
    refine ⟨?_, fun _ => ?_, fun hfalse => ?_⟩
    · rw [hres]
      simpa using (is_valid_iff m b).mp hv
    · refine ⟨heff.1, hLen ▸ heff.2.1, heff.2.2.1, heff.2.2.2⟩
    · rw [hres] at hfalse
      exact absurd hfalse (by simp)
  · rw [apply_move_of_invalid b m hv]
    refine ⟨⟨fun h => by simp at h, fun hcon => ?_⟩, by simp, fun _ => rfl⟩
    exact absurd ((is_valid_iff m b).mpr (by tauto)) hv

/-- C1 witness: a concrete valid jump on the 5-row board. -/
theorem apply_move_correct_witness :
    (Board.init 5 0).num_holes = (Board.init 5 0).state.length ∧
      (((Board.init 5 0).apply_move ⟨3, 1, 0⟩).1 = true ∧
        ((Board.init 5 0).apply_move ⟨3, 1, 0⟩).2.state.getD 0 false = true) := by
  refine ⟨by decide, ?_, ?_⟩
  · exact (apply_move_correct (Board.init 5 0) ⟨3, 1, 0⟩ (by decide)).1.mpr (by decide)
  · have h := (apply_move_correct (Board.init 5 0) ⟨3, 1, 0⟩ (by decide)).2.1
      ((apply_move_correct (Board.init 5 0) ⟨3, 1, 0⟩ (by decide)).1.mpr (by decide))
    exact h.2.2.2.2.2.1

/-! Section: The index / (row, col) bijection (claim C3) -/

/-- C3: for a well-formed board, `num_holes = num_rows*(num_rows+1)/2`;
`get_row_col` fails exactly on out-of-range indices and `get_index` fails
exactly on out-of-range coordinates; on in-range input they are mutually
inverse, with `0 ≤ row < num_rows` and `0 ≤ col ≤ row`. -/
theorem index_rowcol_bijection (b : Board)
    (hgeom : b.num_holes = b.num_rows * (b.num_rows + 1) / 2)
    (_hpos : 1 ≤ b.num_rows) :
    (∀ n e : Nat, (Board.init n e).num_holes = n * (n + 1) / 2) ∧
    (∀ i : Int, b.get_row_col i = none ↔ (i < 0 ∨ (b.num_holes : Int) ≤ i)) ∧
    (∀ r c : Int, b.get_index r c = -1 ↔
      (r < 0 ∨ (b.num_rows : Int) ≤ r ∨ c < 0 ∨ r < c)) ∧
    (∀ i : Int, 0 ≤ i → i < (b.num_holes : Int) →
      ∃ r c : Int, b.get_row_col i = some (r, c) ∧ 0 ≤ r ∧ r < (b.num_rows : Int) ∧
        0 ≤ c ∧ c ≤ r ∧ b.get_index r c = i) ∧
    (∀ r c : Int, 0 ≤ r → r < (b.num_rows : Int) → 0 ≤ c → c ≤ r →
      b.get_row_col (b.get_index r c) = some (r, c)) := by
  have hgeom' : b.num_holes = tri b.num_rows := hgeom
  refine ⟨fun n e => rfl, ?_, ?_, ?_, ?_⟩
  · intro i
    constructor
    · intro hnone
      by_contra hcon
      push_neg at hcon
      obtain ⟨hi0, hiH⟩ := hcon
      have hi : i.toNat < b.num_holes := by omega
      have := get_row_col_eq b i.toNat hi
      rw [show ((i.toNat : Nat) : Int) = i by omega] at this
      rw [this] at hnone
      exact Option.some_ne_none _ hnone
    · exact get_row_col_neg b i
  · intro r c
    constructor
    · intro hneg
      by_contra hcon
      push_neg at hcon
      obtain ⟨hr0, hrN, hc0, hcr⟩ := hcon
      have hre : r = ((r.toNat : Nat) : Int) := by omega
      have hce : c = ((c.toNat : Nat) : Int) := by omega
      rw [hre, hce, get_index_eq b r.toNat c.toNat (by omega) (by omega)] at hneg
      omega
    · exact get_index_neg b r c
  · intro i hi0 hiH
    have hi : i.toNat < b.num_holes := by omega
    obtain ⟨r, c, hsome, hr, hc, htric, hback⟩ := get_row_col_decomp b hgeom' i.toNat hi
    rw [show ((i.toNat : Nat) : Int) = i by omega] at hsome hback
    exact ⟨r, c, hsome, by positivity, by exact_mod_cast hr, by positivity,
      by exact_mod_cast hc, hback⟩
  · intro r c hr0 hrN hc0 hcr
    have hre : r = ((r.toNat : Nat) : Int) := by omega
    have hce : c = ((c.toNat : Nat) : Int) := by omega
    rw [hre, hce]
    exact get_row_col_get_index b hgeom' r.toNat c.toNat (by omega) (by omega)

/-- C3 witness: on the 5-row board, index 7 decodes to row 3, column 1 and
encodes back to 7. -/
theorem index_rowcol_bijection_witness :
    (Board.init 5 0).get_row_col ((Board.init 5 0).get_index 3 1) = some (3, 1) := by
  exact (index_rowcol_bijection (Board.init 5 0) (by decide) (by decide)).2.2.2.2
    3 1 (by decide) (by decide) (by decide) (by decide)

/-! Section: The round-trip property (claim C8) -/

/-- C8 counterexample: on the 3-row board with hole 0 empty, applying the
valid move (3, 1, 0) and then its inverse (0, 1, 3) does not restore the
original board. -/
theorem roundtrip_counterexample :
    Move.is_valid ⟨3, 1, 0⟩ (Board.init 3 0) = true ∧
      ¬ (((Board.init 3 0).apply_move ⟨3, 1, 0⟩).2.apply_move ⟨0, 1, 3⟩).2 =
        Board.init 3 0 := by
  decide

/-- C8 (amended): after a valid move `m`, the jumped hole is empty, so the
inverse move (start and destination swapped, same jumped hole) is rejected
by `apply_move`: the second application returns `false` and leaves the
board in the post-`m` state, which differs from the original board. -/
theorem roundtrip_fails (b : Board) (m : Move) (hv : m.is_valid b = true) :
    ((b.apply_move m).2.apply_move ⟨m.destination, m.jumped, m.start⟩).1 = false ∧
    ((b.apply_move m).2.apply_move ⟨m.destination, m.jumped, m.start⟩).2 =
      (b.apply_move m).2 ∧
    (b.apply_move m).2 ≠ b := by
  obtain ⟨hres, hrows, hholes, hlen, hs, hj, hd, hframe⟩ := apply_move_effects b m hv
  obtain ⟨h1, h2, h3, h4, h5, h6, hvs, hvj, hvd⟩ := (is_valid_iff m b).mp hv
  have hinv : ¬ Move.is_valid ⟨m.destination, m.jumped, m.start⟩ (b.apply_move m).2 = true := by
    intro hcon
    obtain ⟨-, -, -, -, -, -, -, hcj, -⟩ :=
      (is_valid_iff ⟨m.destination, m.jumped, m.start⟩ (b.apply_move m).2).mp hcon
    rw [show (Move.mk m.destination m.jumped m.start).jumped = m.jumped from rfl] at hcj
    rw [hj] at hcj
    exact Bool.false_ne_true hcj
  have happ := apply_move_of_invalid (b.apply_move m).2 ⟨m.destination, m.jumped, m.start⟩ hinv
  refine ⟨by rw [happ], by rw [happ], ?_⟩
  intro hcon
  rw [hcon] at hd
  rw [hvd] at hd
  exact Bool.false_ne_true hd

/-- C8 witness for the amended claim: the concrete inverse application on
the 3-row board is rejected. -/
theorem roundtrip_fails_witness :
    Move.is_valid ⟨3, 1, 0⟩ (Board.init 3 0) = true ∧
      (((Board.init 3 0).apply_move ⟨3, 1, 0⟩).2.apply_move ⟨0, 1, 3⟩).1 = false :=
  ⟨by decide, (roundtrip_fails (Board.init 3 0) ⟨3, 1, 0⟩ (by decide)).1⟩

/-! Section: The 5-row opening scenario (claim C9) -/

/-- C9 counterexample: the 5-row board has 15 holes, not 14. -/
theorem five_rows_counterexample :
    (Board.init 5 0).num_holes = 15 ∧ ¬ (Board.init 5 0).num_holes = 14 := by
  decide

/-- C9 (amended): `num_rows=5, empty_hole=0` gives 15 holes and 14 pegs,
and `get_valid_moves` on the initial state returns exactly the two moves
(3, 1, 0) and (5, 2, 0), whose start holes are 3 and 5, in the fixed
direction ordering. -/
theorem five_rows_scenario :
    (Board.init 5 0).num_holes = 15 ∧
    (Board.init 5 0).pegs_remaining = 14 ∧
    (Board.init 5 0).get_valid_moves = [⟨3, 1, 0⟩, ⟨5, 2, 0⟩] := by
  decide

/-! Section: Normal form of get_valid_moves (claim C2) -/

theorem foldl_opt_append (f : α → Option β) (fd : List β → α → List β)
    (h : ∀ acc x, fd acc x = match f x with | some y => acc ++ [y] | none => acc) :
    ∀ (l : List α) (init : List β), l.foldl fd init = init ++ l.filterMap f := by
  intro l
  induction l with
  | nil => intro init; simp
  | cons a t ih =>
    intro init
    rw [List.foldl_cons, List.filterMap_cons, h]
    cases hfa : f a with
    | none => rw [ih]
    | some y =>
      rw [ih, List.append_assoc]
      rfl

theorem foldl_append_flatMap (g : α → List β) (fd : List β → α → List β)
    (h : ∀ acc x, fd acc x = acc ++ g x) :
    ∀ (l : List α) (init : List β), l.foldl fd init = init ++ l.flatMap g := by
  intro l
  induction l with
  | nil => intro init; simp
  | cons a t ih =>
    intro init
    rw [List.foldl_cons, List.flatMap_cons, h, ih, List.append_assoc]

/-- The nested loops of `get_valid_moves` build exactly the concatenation
of the per-start-hole candidate lists, in start order. -/
theorem get_valid_moves_eq_flatMap (b : Board) :
    b.get_valid_moves = (List.range b.num_holes).flatMap (movesFrom b) := by
  unfold Board.get_valid_moves
  refine ((foldl_append_flatMap (movesFrom b) _ ?_ (List.range b.num_holes) []).trans
    (List.nil_append _))
  intro acc start
  unfold movesFrom
  by_cases hocc : b.state.getD start false = false
  · rw [if_pos hocc, if_pos hocc, List.append_nil]
  · rw [if_neg hocc, if_neg hocc]
    cases hrc : b.get_row_col (start : Int) with
    | none =>
      show acc = acc ++ []
      rw [List.append_nil]
    | some rc =>
      obtain ⟨start_row, start_col⟩ := rc
      refine foldl_opt_append (moveCandidate b start start_row start_col) _ ?_ directions acc
      intro moves d
      simp only []
      unfold moveCandidate
      simp only []
      by_cases hcnd : b.get_index (start_row + d.1 / 2) (start_col + d.2 / 2) ≠ -1 ∧
          b.get_index (start_row + d.1) (start_col + d.2) ≠ -1 ∧
          b.state.getD (b.get_index (start_row + d.1 / 2) (start_col + d.2 / 2)).toNat false = true ∧
          b.state.getD (b.get_index (start_row + d.1) (start_col + d.2)).toNat false = false
      · rw [if_pos hcnd, if_pos hcnd]
      · rw [if_neg hcnd, if_neg hcnd]

theorem mem_movesFrom (b : Board) (s : Nat) (m : Move) :
    m ∈ movesFrom b s ↔
      b.state.getD s false = true ∧
      ∃ start_row start_col : Int,
        b.get_row_col (s : Int) = some (start_row, start_col) ∧
        ∃ d ∈ directions,
          b.get_index (start_row + d.1 / 2) (start_col + d.2 / 2) ≠ -1 ∧
          b.get_index (start_row + d.1) (start_col + d.2) ≠ -1 ∧
          b.state.getD (b.get_index (start_row + d.1 / 2) (start_col + d.2 / 2)).toNat false = true ∧
          b.state.getD (b.get_index (start_row + d.1) (start_col + d.2)).toNat false = false ∧
          m = ⟨(s : Int), b.get_index (start_row + d.1 / 2) (start_col + d.2 / 2),
            b.get_index (start_row + d.1) (start_col + d.2)⟩ := by
  unfold movesFrom
  by_cases hocc : b.state.getD s false = false
  · rw [if_pos hocc]
    constructor
    · intro h
      exact absurd h (List.not_mem_nil m)
    · rintro ⟨h1, -⟩
      rw [hocc] at h1
      exact absurd h1 (by simp)
  · rw [if_neg hocc]
    have hocc' : b.state.getD s false = true := by
      revert hocc
      cases b.state.getD s false <;> simp
    cases hrc : b.get_row_col (s : Int) with
    | none => simp [hrc]
    | some rc =>
      obtain ⟨sr, sc⟩ := rc
      rw [List.mem_filterMap]
      constructor
      · rintro ⟨d, hd, hcand⟩
        refine ⟨hocc', sr, sc, rfl, d, hd, ?_⟩
        unfold moveCandidate at hcand
        by_cases hcnd : b.get_index (sr + d.1 / 2) (sc + d.2 / 2) ≠ -1 ∧
            b.get_index (sr + d.1) (sc + d.2) ≠ -1 ∧
            b.state.getD (b.get_index (sr + d.1 / 2) (sc + d.2 / 2)).toNat false = true ∧
            b.state.getD (b.get_index (sr + d.1) (sc + d.2)).toNat false = false
        · rw [if_pos hcnd] at hcand
          obtain ⟨h1, h2, h3, h4⟩ := hcnd
          exact ⟨h1, h2, h3, h4, (Option.some.inj hcand).symm⟩
        · rw [if_neg hcnd] at hcand
          exact absurd hcand (by simp)
      · rintro ⟨-, sr', sc', hrc', d, hd, h1, h2, h3, h4, rfl⟩
        have hpair := Option.some.inj hrc'
        rw [Prod.mk.injEq] at hpair
        obtain ⟨rfl, rfl⟩ := hpair
        refine ⟨d, hd, ?_⟩
        unfold moveCandidate
        rw [if_pos ⟨h1, h2, h3, h4⟩]

/-- Membership half of claim C2: `get_valid_moves` returns exactly the
jump moves of the board. -/
theorem mem_get_valid_moves (b : Board) (m : Move) :
    m ∈ b.get_valid_moves ↔ IsJumpMove b m := by
  rw [get_valid_moves_eq_flatMap, List.mem_flatMap]
  unfold IsJumpMove
  constructor
  · rintro ⟨s, hs, hm⟩
    rw [List.mem_range] at hs
    obtain ⟨h1, rest⟩ := (mem_movesFrom b s m).mp hm
    exact ⟨s, hs, h1, rest⟩
  · rintro ⟨s, hs, h1, rest⟩
    exact ⟨s, List.mem_range.mpr hs, (mem_movesFrom b s m).mpr ⟨h1, rest⟩⟩

/-! Section: Ordering of get_valid_moves (claim C2, second half) -/

theorem get_index_inrange (b : Board) {r c : Int} (h : b.get_index r c ≠ -1) :
    0 ≤ r ∧ r < (b.num_rows : Int) ∧ 0 ≤ c ∧ c ≤ r := by
  unfold Board.get_index at h
  by_cases hc2 : r < 0 ∨ (b.num_rows : Int) ≤ r ∨ c < 0 ∨ r < c
  · rw [if_pos hc2] at h
    exact absurd rfl h
  · push_neg at hc2
    exact ⟨hc2.1, hc2.2.1, hc2.2.2.1, hc2.2.2.2⟩

/-- Integer-level version of the coordinate round trip. -/
theorem get_row_col_get_index_int (b : Board) (hgeom : b.num_holes = tri b.num_rows)
    {r c : Int} (hr0 : 0 ≤ r) (hrN : r < (b.num_rows : Int)) (hc0 : 0 ≤ c) (hcr : c ≤ r) :
    b.get_row_col (b.get_index r c) = some (r, c) := by
  have hre : r = ((r.toNat : Nat) : Int) := by omega
  have hce : c = ((c.toNat : Nat) : Int) := by omega
  rw [hre, hce]
  exact get_row_col_get_index b hgeom r.toNat c.toNat (by omega) (by omega)

/-- A successful candidate remembers its start hole and its direction. -/
theorem moveCandidate_recover (b : Board) (hgeom : b.num_holes = tri b.num_rows)
    (s : Nat) (sr sc : Int) (d : Int × Int) (m : Move)
    (hrc : b.get_row_col (s : Int) = some (sr, sc))
    (hc : moveCandidate b s sr sc d = some m) :
    m.start = (s : Int) ∧ moveDir b m = d := by
  unfold moveCandidate at hc
  by_cases hcnd : b.get_index (sr + d.1 / 2) (sc + d.2 / 2) ≠ -1 ∧
      b.get_index (sr + d.1) (sc + d.2) ≠ -1 ∧
      b.state.getD (b.get_index (sr + d.1 / 2) (sc + d.2 / 2)).toNat false = true ∧
      b.state.getD (b.get_index (sr + d.1) (sc + d.2)).toNat false = false
  · rw [if_pos hcnd] at hc
    obtain ⟨hj, ht, _, _⟩ := hcnd
    obtain rfl := Option.some.inj hc
    refine ⟨rfl, ?_⟩
    obtain ⟨ht0, htN, htc0, htcr⟩ := get_index_inrange b ht
    unfold moveDir
    show (match b.get_row_col (s : Int),
        b.get_row_col (b.get_index (sr + d.1) (sc + d.2)) with
      | some (sr, sc), some (dr, dc) => (dr - sr, dc - sc)
      | _, _ => (0, 0)) = d
    rw [hrc, get_row_col_get_index_int b hgeom ht0 htN htc0 htcr]
    show (sr + d.1 - sr, sc + d.2 - sc) = d
    obtain ⟨d1, d2⟩ := d
    show (sr + d1 - sr, sc + d2 - sc) = (d1, d2)
    congr 1 <;> omega
  · rw [if_neg hcnd] at hc
    exact absurd hc (by simp)

theorem movesFrom_start (b : Board) (s : Nat) (m : Move) (hm : m ∈ movesFrom b s) :
    m.start = (s : Int) := by
  obtain ⟨-, sr, sc, -, d, -, -, -, -, -, rfl⟩ := (mem_movesFrom b s m).mp hm
  rfl

theorem pairwise_filterMap_rel {α β : Type} {R : β → β → Prop} {S : α → α → Prop}
    (f : α → Option β) {l : List α} (hl : l.Pairwise S)
    (h : ∀ a₁ a₂ b₁ b₂, S a₁ a₂ → f a₁ = some b₁ → f a₂ = some b₂ → R b₁ b₂) :
    (l.filterMap f).Pairwise R := by
  induction hl with
  | nil => simp
  | @cons a t ha _ ih =>
    rw [List.filterMap_cons]
    cases hfa : f a with
    | none => exact ih
    | some y =>
      refine List.Pairwise.cons ?_ ih
      intro z hz
      obtain ⟨a', ha', hfa'⟩ := List.mem_filterMap.mp hz
      exact h a a' y z (ha a' ha') hfa hfa'

theorem directions_indexOf_sorted :
    directions.Pairwise (fun d₁ d₂ => directions.indexOf d₁ < directions.indexOf d₂) := by
  decide

theorem movesFrom_sorted (b : Board) (hgeom : b.num_holes = tri b.num_rows) (s : Nat) :
    (movesFrom b s).Pairwise (moveOrd b) := by
  unfold movesFrom
  by_cases hocc : b.state.getD s false = false
  · rw [if_pos hocc]
    exact List.Pairwise.nil
  · rw [if_neg hocc]
    cases hrc : b.get_row_col (s : Int) with
    | none => exact List.Pairwise.nil
    | some rc =>
      obtain ⟨sr, sc⟩ := rc
      refine pairwise_filterMap_rel _ directions_indexOf_sorted ?_
      intro d₁ d₂ m₁ m₂ hS h₁ h₂
      obtain ⟨hs₁, hd₁⟩ := moveCandidate_recover b hgeom s sr sc d₁ m₁ hrc h₁
      obtain ⟨hs₂, hd₂⟩ := moveCandidate_recover b hgeom s sr sc d₂ m₂ hrc h₂
      right
      refine ⟨hs₁.trans hs₂.symm, ?_⟩
      unfold dirIndex
      rw [hd₁, hd₂]
      exact hS

/-- Ordering half of claim C2: the produced move list is sorted by start
index, then by position in the fixed direction list. -/
theorem get_valid_moves_sorted (b : Board) (hgeom : b.num_holes = tri b.num_rows) :
    b.get_valid_moves.Pairwise (moveOrd b) := by
  rw [get_valid_moves_eq_flatMap, List.flatMap_def, List.pairwise_flatten]
  constructor
  · intro l hl
    obtain ⟨s, -, rfl⟩ := List.mem_map.mp hl
    exact movesFrom_sorted b hgeom s
  · rw [List.pairwise_map]
    refine (List.pairwise_lt_range _).imp ?_
    intro s₁ s₂ hlt m₁ h₁ m₂ h₂
    left
    rw [movesFrom_start b s₁ m₁ h₁, movesFrom_start b s₂ m₂ h₂]
    exact_mod_cast hlt

/-- C2: `get_valid_moves` returns exactly the jump moves (occupied start,
existing occupied midpoint at half the offset, existing empty destination
at the offset, over the six fixed directions), ordered ascending by start
index and then by the position of the direction in the fixed list. -/
theorem get_valid_moves_correct (b : Board)
    (hgeom : b.num_holes = b.num_rows * (b.num_rows + 1) / 2) :
    (∀ m, m ∈ b.get_valid_moves ↔ IsJumpMove b m) ∧
    b.get_valid_moves.Pairwise (moveOrd b) :=
  ⟨fun m => mem_get_valid_moves b m, get_valid_moves_sorted b hgeom⟩

/-- C2 witness: on the 5-row board the move (3, 1, 0) is produced, hence a
jump move, and conversely. -/
theorem get_valid_moves_correct_witness :
    IsJumpMove (Board.init 5 0) ⟨3, 1, 0⟩ :=
  ((get_valid_moves_correct (Board.init 5 0) (by decide)).1 ⟨3, 1, 0⟩).mp (by decide)

/-! Section: Facts about moves produced by get_valid_moves -/

theorem count_true_pos (l : List Bool) {i : Nat} (h : l.getD i false = true) :
    1 ≤ l.count true := by
  have hi : i < l.length := getD_true_lt l h
  rw [List.getD_eq_getElem?_getD, List.getElem?_eq_getElem hi] at h
  simp only [Option.getD_some] at h
  have hmem : true ∈ l := h ▸ List.getElem_mem hi
  exact List.count_pos_iff.mpr hmem

theorem count_set_false (l : List Bool) {i : Nat} (hi : i < l.length)
    (h : l.getD i false = true) :
    (l.set i false).count true + 1 = l.count true := by
  have hc := count_true_set l i hi false
  rw [h] at hc
  simp at hc
  omega

theorem count_set_true (l : List Bool) {i : Nat} (hi : i < l.length)
    (h : l.getD i false = false) :
    (l.set i true).count true = l.count true + 1 := by
  have hc := count_true_set l i hi true
  rw [h] at hc
  simp at hc
  omega

theorem apply_move_snd_state (b : Board) (m : Move) (hv : m.is_valid b = true) :
    (b.apply_move m).2.state =
      ((b.state.set m.start.toNat false).set m.jumped.toNat false).set
        m.destination.toNat true := by
  unfold Board.apply_move
  rw [if_pos hv]

/-- An in-range `get_index` value is a valid hole index of a well-formed
board. -/
theorem get_index_bounds (b : Board) {r c : Int} (h : b.get_index r c ≠ -1) :
    0 ≤ b.get_index r c ∧ b.get_index r c < (tri b.num_rows : Int) := by
  obtain ⟨hr0, hrN, hc0, hcr⟩ := get_index_inrange b h
  have hre : r = ((r.toNat : Nat) : Int) := by omega
  have hce : c = ((c.toNat : Nat) : Int) := by omega
  rw [hre, hce, get_index_eq b r.toNat c.toNat (by omega) (by omega)]
  constructor
  · positivity
  · exact_mod_cast tri_add_lt (show r.toNat < b.num_rows by omega) (by omega)

/-- The six jump offsets: half the offset is never zero, the offset is
never zero, and half the offset never equals the offset. -/
theorem direction_facts :
    ∀ d ∈ directions,
      ¬ (d.1 / 2 = 0 ∧ d.2 / 2 = 0) ∧ ¬ (d.1 = 0 ∧ d.2 = 0) ∧
        ¬ (d.1 / 2 = d.1 ∧ d.2 / 2 = d.2) := by
  decide

/-- A move produced by `get_valid_moves` on a well-formed board passes
`is_valid` and has three pairwise different holes. -/
theorem valid_move_facts (b : Board) (hWF : b.WF) (m : Move)
    (hm : m ∈ b.get_valid_moves) :
    m.is_valid b = true ∧
    m.start.toNat ≠ m.jumped.toNat ∧
    m.start.toNat ≠ m.destination.toNat ∧
    m.jumped.toNat ≠ m.destination.toNat := by
  obtain ⟨hgeom, hlen⟩ := hWF
  have hgeom' : b.num_holes = tri b.num_rows := hgeom
  obtain ⟨s, hsH, hsOcc, sr, sc, hrc, d, hd, hJ, hT, hJocc, hTemp, rfl⟩ :=
    (mem_get_valid_moves b m).mp hm
  obtain ⟨hJ0, hJlt⟩ := get_index_bounds b hJ
  obtain ⟨hT0, hTlt⟩ := get_index_bounds b hT
  obtain ⟨hJr0, hJrN, hJc0, hJcr⟩ := get_index_inrange b hJ
  obtain ⟨hTr0, hTrN, hTc0, hTcr⟩ := get_index_inrange b hT
  have hsI : ((s : Int)).toNat = s := by omega
  have hrcJ := get_row_col_get_index_int b hgeom' hJr0 hJrN hJc0 hJcr
  have hrcT := get_row_col_get_index_int b hgeom' hTr0 hTrN hTc0 hTcr
  obtain ⟨hdir1, hdir2, hdir3⟩ := direction_facts d hd
  have hlenI : (b.num_holes : Int) = (b.state.length : Int) := by exact_mod_cast hlen
  refine ⟨?_, ?_, ?_, ?_⟩
  · refine (is_valid_iff _ b).mpr ?_
    refine ⟨by positivity, ?_, hJ0, ?_, hT0, ?_, ?_, hJocc, hTemp⟩
    · show (s : Int) < (b.state.length : Int)
      rw [← hlenI]
      exact_mod_cast hsH
    · rw [← hlenI, hgeom']
      exact hJlt
    · rw [← hlenI, hgeom']
      exact hTlt
    · show b.state.getD ((s : Int)).toNat false = true
      rw [hsI]
      exact hsOcc
  · intro hEq
    have hEq' : ((s : Int)).toNat =
        (b.get_index (sr + d.1 / 2) (sc + d.2 / 2)).toNat := hEq
    have hEqI : (s : Int) = b.get_index (sr + d.1 / 2) (sc + d.2 / 2) := by omega
    have := hrc.symm.trans (hEqI ▸ hrcJ)
    rw [Option.some.injEq, Prod.mk.injEq] at this
    exact hdir1 ⟨by omega, by omega⟩
  · intro hEq
    have hEq' : ((s : Int)).toNat =
        (b.get_index (sr + d.1) (sc + d.2)).toNat := hEq
    have hEqI : (s : Int) = b.get_index (sr + d.1) (sc + d.2) := by omega
    have := hrc.symm.trans (hEqI ▸ hrcT)
    rw [Option.some.injEq, Prod.mk.injEq] at this
    exact hdir2 ⟨by omega, by omega⟩
  · intro hEq
    have hEq' : (b.get_index (sr + d.1 / 2) (sc + d.2 / 2)).toNat =
        (b.get_index (sr + d.1) (sc + d.2)).toNat := hEq
    have hEqI : b.get_index (sr + d.1 / 2) (sc + d.2 / 2) =
        b.get_index (sr + d.1) (sc + d.2) := by omega
    have := hrcJ.symm.trans (hEqI ▸ hrcT)
    rw [Option.some.injEq, Prod.mk.injEq] at this
    exact hdir3 ⟨by omega, by omega⟩

/-- Applying a produced move removes exactly one peg and keeps the board
well-formed. -/
theorem apply_move_pegs (b : Board) (hWF : b.WF) (m : Move)
    (hm : m ∈ b.get_valid_moves) :
    (b.apply_move m).2.pegs_remaining + 1 = b.pegs_remaining ∧
      (b.apply_move m).2.WF := by
  obtain ⟨hv, hsj, hsd, hjd⟩ := valid_move_facts b hWF m hm
  obtain ⟨h1, h2, h3, h4, h5, h6, hs, hj, hd⟩ := (is_valid_iff m b).mp hv
  have hsN : m.start.toNat < b.state.length := by omega
  have hjN : m.jumped.toNat < b.state.length := by omega
  have hdN : m.destination.toNat < b.state.length := by omega
  have hstate := apply_move_snd_state b m hv
  have hl1 : (b.state.set m.start.toNat false).length = b.state.length :=
    List.length_set ..
  have hl2 : ((b.state.set m.start.toNat false).set m.jumped.toNat false).length =
      b.state.length := by rw [List.length_set, hl1]
  have c1 := count_set_false b.state hsN hs
  have hgj : (b.state.set m.start.toNat false).getD m.jumped.toNat false = true := by
    rw [getD_set_ne _ hsj, hj]
  have c2 := count_set_false (b.state.set m.start.toNat false) (by omega) hgj
  have hgd : ((b.state.set m.start.toNat false).set m.jumped.toNat false).getD
      m.destination.toNat false = false := by
    rw [getD_set_ne _ hjd, getD_set_ne _ hsd, hd]
  have c3 := count_set_true ((b.state.set m.start.toNat false).set m.jumped.toNat false)
    (by omega) hgd
  constructor
  · show (b.apply_move m).2.state.count true + 1 = b.state.count true
    rw [hstate]
    omega
  · obtain ⟨hgeom, hlen⟩ := hWF
    have heff := apply_move_effects b m hv
    refine ⟨by rw [heff.2.2.1, heff.2.1]; exact hgeom, ?_⟩
    rw [heff.2.2.1, heff.2.2.2.1]
    exact hlen

theorem pegs_pos_of_moves (b : Board) (hne : b.get_valid_moves ≠ []) :
    1 ≤ b.pegs_remaining := by
  obtain ⟨m, hm⟩ := List.exists_mem_of_ne_nil _ hne
  obtain ⟨s, hsH, hsOcc, -⟩ := (mem_get_valid_moves b m).mp hm
  exact count_true_pos b.state hsOcc

theorem game_over_of_pegs_zero (b : Board) (h : b.pegs_remaining = 0) :
    b.is_game_over = true := by
  unfold Board.is_game_over
  rw [List.isEmpty_iff]
  by_contra hne
  have := pegs_pos_of_moves b hne
  omega

theorem solve_worker_terminal (b : Board) (hterm : b.is_game_over = true)
    (f : Nat) (cur : List Move) :
    solve_worker f b cur = (b.pegs_remaining, cur) := by
  cases f with
  | zero => rfl
  | succ a =>
    rw [solve_worker, if_pos hterm]

theorem is_game_over_iff (b : Board) :
    b.is_game_over = true ↔ b.get_valid_moves = [] := by
  unfold Board.is_game_over
  exact List.isEmpty_iff

theorem foldl_step_map {α β γ : Type} (g : α → β) (step : γ → β → γ) :
    ∀ (l : List α) (init : γ),
      l.foldl (fun acc x => step acc (g x)) init = (l.map g).foldl step init := by
  intro l
  induction l with
  | nil => intro init; rfl
  | cons a t ih =>
    intro init
    rw [List.map_cons, List.foldl_cons, List.foldl_cons, ih]

/-- Case analysis of one reduction step: the candidate wins outright, the
accumulator is kept, or (on a tie with a shorter sequence) the candidate's
sequence is adopted while the peg count is unchanged. -/
theorem bestStep_cases (acc : Option Nat × List Move) (r : Nat × List Move) :
    bestStep acc r = (some r.1, r.2) ∨
    (∃ bp, acc.1 = some bp ∧ bestStep acc r = acc) ∨
    (∃ bp, acc.1 = some bp ∧ r.1 = bp ∧ bestStep acc r = (some bp, r.2)) := by
  obtain ⟨a1, a2⟩ := acc
  cases a1 with
  | none => exact Or.inl rfl
  | some bq =>
    rw [bestStep]
    by_cases h1 : r.1 < bq
    · rw [if_pos h1]
      exact Or.inl rfl
    · rw [if_neg h1]
      by_cases h2 : r.1 = bq
      · rw [if_pos h2]
        by_cases h3 : r.2.length < a2.length
        · rw [if_pos h3]
          exact Or.inr (Or.inr ⟨bq, rfl, h2, rfl⟩)
        · rw [if_neg h3]
          exact Or.inr (Or.inl ⟨bq, rfl, rfl⟩)
      · rw [if_neg h2]
        exact Or.inr (Or.inl ⟨bq, rfl, rfl⟩)

theorem bestStep_isSome (acc : Option Nat × List Move) (r : Nat × List Move) :
    ((bestStep acc r).1).isSome = true := by
  rcases bestStep_cases acc r with hc | ⟨bq, hq, hc⟩ | ⟨bq, hq, -, hc⟩
  · rw [hc]
    rfl
  · rw [hc, hq]
    rfl
  · rw [hc]
    rfl

theorem foldl_bestStep_isSome_aux :
    ∀ (rs : List (Nat × List Move)) (acc : Option Nat × List Move),
      acc.1.isSome = true → ((rs.foldl bestStep acc).1).isSome = true := by
  intro rs
  induction rs with
  | nil => intro acc h; exact h
  | cons r t ih =>
    intro acc _
    rw [List.foldl_cons]
    exact ih (bestStep acc r) (bestStep_isSome acc r)

theorem foldl_bestStep_isSome (rs : List (Nat × List Move))
    (acc : Option Nat × List Move) (h : rs ≠ []) :
    ((rs.foldl bestStep acc).1).isSome = true := by
  cases rs with
  | nil => exact absurd rfl h
  | cons r t =>
    rw [List.foldl_cons]
    exact foldl_bestStep_isSome_aux t (bestStep acc r) (bestStep_isSome acc r)

/-- Every property that holds of each candidate and of the accumulator's
current best also holds of the reduction's final best. -/
theorem bestStep_inv (P : Nat × List Move → Prop) (acc : Option Nat × List Move)
    (r : Nat × List Move) (hr : P r)
    (hacc : ∀ bp, acc.1 = some bp → P (bp, acc.2)) :
    ∀ bp, (bestStep acc r).1 = some bp → P (bp, (bestStep acc r).2) := by
  intro bp h
  rcases bestStep_cases acc r with hc | ⟨bq, hq, hc⟩ | ⟨bq, hq, hrq, hc⟩
  · rw [hc] at h ⊢
    obtain rfl : r.1 = bp := Option.some.inj h
    exact hr
  · rw [hc] at h ⊢
    exact hacc bp h
  · rw [hc] at h ⊢
    obtain rfl : bq = bp := Option.some.inj h
    rw [← hrq]
    exact hr

theorem foldl_bestStep_spec (P : Nat × List Move → Prop) :
    ∀ (rs : List (Nat × List Move)) (acc : Option Nat × List Move),
      (∀ r ∈ rs, P r) → (∀ bp, acc.1 = some bp → P (bp, acc.2)) →
      ∀ bp, (rs.foldl bestStep acc).1 = some bp →
        P (bp, (rs.foldl bestStep acc).2) := by
  intro rs
  induction rs with
  | nil =>
    intro acc _ hacc
    exact hacc
  | cons r t ih =>
    intro acc hrs hacc
    rw [List.foldl_cons]
    exact ih (bestStep acc r) (fun x hx => hrs x (List.mem_cons_of_mem r hx))
      (bestStep_inv P acc r (hrs r (List.mem_cons_self r t)) hacc)

/-- When every candidate pairs its peg count and sequence length to the
same budget, the tie branch of `bestStep` never fires and the reduction
agrees with the first-found-wins reduction. -/
theorem bestStep_eq_ffStep (K : Nat) (acc : Option Nat × List Move)
    (r : Nat × List Move) (hr : r.1 + r.2.length = K)
    (hacc : ∀ bp, acc.1 = some bp → bp + acc.2.length = K) :
    bestStep acc r = ffStep acc r := by
  obtain ⟨a1, a2⟩ := acc
  cases a1 with
  | none => rfl
  | some bq =>
    rw [bestStep, ffStep]
    by_cases h1 : r.1 < bq
    · rw [if_pos h1, if_pos h1]
    · rw [if_neg h1, if_neg h1]
      by_cases h2 : r.1 = bq
      · rw [if_pos h2]
        have hK := hacc bq rfl
        have h3 : ¬ r.2.length < a2.length := by
          simp only [] at hK
          omega
        rw [if_neg h3]
      · rw [if_neg h2]

theorem ffStep_inv (K : Nat) (acc : Option Nat × List Move) (r : Nat × List Move)
    (hr : r.1 + r.2.length = K)
    (hacc : ∀ bp, acc.1 = some bp → bp + acc.2.length = K) :
    ∀ bp, (ffStep acc r).1 = some bp → bp + (ffStep acc r).2.length = K := by
  intro bp h
  obtain ⟨a1, a2⟩ := acc
  cases a1 with
  | none =>
    obtain rfl : r.1 = bp := Option.some.inj h
    exact hr
  | some bq =>
    rw [ffStep] at h ⊢
    by_cases h1 : r.1 < bq
    · rw [if_pos h1] at h ⊢
      obtain rfl : r.1 = bp := Option.some.inj h
      exact hr
    · rw [if_neg h1] at h ⊢
      obtain rfl : bq = bp := Option.some.inj h
      exact hacc _ rfl

theorem foldl_best_eq_ff (K : Nat) :
    ∀ (rs : List (Nat × List Move)) (acc : Option Nat × List Move),
      (∀ r ∈ rs, r.1 + r.2.length = K) →
      (∀ bp, acc.1 = some bp → bp + acc.2.length = K) →
      rs.foldl bestStep acc = rs.foldl ffStep acc := by
  intro rs
  induction rs with
  | nil => intro acc _ _; rfl
  | cons r t ih =>
    intro acc hrs hacc
    rw [List.foldl_cons, List.foldl_cons,
      bestStep_eq_ffStep K acc r (hrs r (List.mem_cons_self r t)) hacc]
    exact ih (ffStep acc r) (fun x hx => hrs x (List.mem_cons_of_mem r hx))
      (ffStep_inv K acc r (hrs r (List.mem_cons_self r t)) hacc)

/-- The result of the bounded worker does not depend on the fuel, as long
as the fuel covers the peg count (the recursion depth). -/
theorem solve_worker_fuel (f₁ : Nat) : ∀ (f₂ : Nat) (b : Board) (cur : List Move),
    b.WF → b.pegs_remaining ≤ f₁ → b.pegs_remaining ≤ f₂ →
    solve_worker f₁ b cur = solve_worker f₂ b cur := by
  induction f₁ with
  | zero =>
    intro f₂ b cur hWF h1 h2
    have hterm : b.is_game_over = true := game_over_of_pegs_zero b (by omega)
    rw [solve_worker_terminal _ hterm, solve_worker_terminal _ hterm]
  | succ a ih =>
    intro f₂ b cur hWF h1 h2
    by_cases hterm : b.is_game_over = true
    · rw [solve_worker_terminal _ hterm, solve_worker_terminal _ hterm]
    · have hne : b.get_valid_moves ≠ [] := by
        intro hnil
        exact hterm (by unfold Board.is_game_over; rw [List.isEmpty_iff]; exact hnil)
      have hpos : 1 ≤ b.pegs_remaining := pegs_pos_of_moves b hne
      obtain ⟨f₂', rfl⟩ : ∃ k, f₂ = k + 1 := ⟨f₂ - 1, by omega⟩
      rw [solve_worker, solve_worker]
      simp only []
      rw [if_neg hterm, if_neg hterm, if_neg hne, if_neg hne]
      have hfold : b.get_valid_moves.foldl
          (fun acc move => bestStep acc
            (solve_worker a (b.apply_move move).2 (cur ++ [move]))) (none, cur) =
          b.get_valid_moves.foldl
          (fun acc move => bestStep acc
            (solve_worker f₂' (b.apply_move move).2 (cur ++ [move]))) (none, cur) := by
        refine List.foldl_ext _ _ _ ?_
        intro acc move hmem
        obtain ⟨hpegs, hWF'⟩ := apply_move_pegs b hWF move hmem
        rw [ih f₂' (b.apply_move move).2 (cur ++ [move]) hWF' (by omega) (by omega)]
      rw [hfold]

/-- Invariant of the worker's result: the peg count plus the number of
moves added to the incoming sequence equals the incoming peg count, and
the reported peg count never exceeds the board's. -/
theorem solve_worker_len (f : Nat) : ∀ (b : Board) (cur : List Move), b.WF →
    (solve_worker f b cur).1 + (solve_worker f b cur).2.length =
      b.pegs_remaining + cur.length ∧
    (solve_worker f b cur).1 ≤ b.pegs_remaining := by
  induction f with
  | zero =>
    intro b cur hWF
    exact ⟨rfl, le_rfl⟩
  | succ a ih =>
    intro b cur hWF
    by_cases hterm : b.is_game_over = true
    · rw [solve_worker_terminal _ hterm]
      exact ⟨rfl, le_rfl⟩
    · have hne : b.get_valid_moves ≠ [] := fun h => hterm ((is_game_over_iff b).mpr h)
      simp only [solve_worker]
      rw [if_neg hterm, if_neg hne]
      have hconv : b.get_valid_moves.foldl
          (fun acc move => bestStep acc
            (solve_worker a (b.apply_move move).2 (cur ++ [move]))) (none, cur) =
          (b.get_valid_moves.map
            (fun move => solve_worker a (b.apply_move move).2 (cur ++ [move]))).foldl
            bestStep (none, cur) :=
        foldl_step_map _ bestStep _ _
      rw [hconv]
      have hrs_ne : b.get_valid_moves.map
          (fun move => solve_worker a (b.apply_move move).2 (cur ++ [move])) ≠ [] := by
        intro hcon
        exact hne (List.map_eq_nil_iff.mp hcon)
      have hsome := foldl_bestStep_isSome _ (none, cur) hrs_ne
      obtain ⟨bp, hbp⟩ := Option.isSome_iff_exists.mp hsome
      have hP : ∀ r ∈ b.get_valid_moves.map
          (fun move => solve_worker a (b.apply_move move).2 (cur ++ [move])),
          r.1 + r.2.length = b.pegs_remaining + cur.length ∧
            r.1 + 1 ≤ b.pegs_remaining := by
        intro r hr
        obtain ⟨m, hm, rfl⟩ := List.mem_map.mp hr
        obtain ⟨hpegs, hWF'⟩ := apply_move_pegs b hWF m hm
        obtain ⟨e1, e2⟩ := ih (b.apply_move m).2 (cur ++ [m]) hWF'
        have hlc : (cur ++ [m]).length = cur.length + 1 := by simp
        constructor
        · omega
        · omega
      have hspec := foldl_bestStep_spec
        (fun r => r.1 + r.2.length = b.pegs_remaining + cur.length ∧
          r.1 + 1 ≤ b.pegs_remaining) _ (none, cur) hP
        (fun bq h => absurd h (by simp)) bp hbp
      rw [hbp]
      simp only [Option.getD_some]
      exact ⟨hspec.1, by omega⟩

theorem solve_worker_ff_terminal (b : Board) (hterm : b.is_game_over = true)
    (f : Nat) (cur : List Move) :
    solve_worker_ff f b cur = (b.pegs_remaining, cur) := by
  cases f with
  | zero => rfl
  | succ a => rw [solve_worker_ff, if_pos hterm]

theorem solve_worker_eq_ff_aux (f : Nat) : ∀ (b : Board) (cur : List Move), b.WF →
    solve_worker f b cur = solve_worker_ff f b cur := by
  induction f with
  | zero => intro b cur _; rfl
  | succ a ih =>
    intro b cur hWF
    by_cases hterm : b.is_game_over = true
    · rw [solve_worker_terminal _ hterm, solve_worker_ff_terminal _ hterm]
    · have hne : b.get_valid_moves ≠ [] := fun h => hterm ((is_game_over_iff b).mpr h)
      simp only [solve_worker, solve_worker_ff]
      rw [if_neg hterm, if_neg hterm, if_neg hne, if_neg hne]
      have hconv1 : b.get_valid_moves.foldl
          (fun acc move => bestStep acc
            (solve_worker a (b.apply_move move).2 (cur ++ [move]))) (none, cur) =
          (b.get_valid_moves.map
            (fun move => solve_worker a (b.apply_move move).2 (cur ++ [move]))).foldl
            bestStep (none, cur) :=
        foldl_step_map _ bestStep _ _
      have hconv2 : b.get_valid_moves.foldl
          (fun acc move => ffStep acc
            (solve_worker_ff a (b.apply_move move).2 (cur ++ [move]))) (none, cur) =
          (b.get_valid_moves.map
            (fun move => solve_worker_ff a (b.apply_move move).2 (cur ++ [move]))).foldl
            ffStep (none, cur) :=
        foldl_step_map _ ffStep _ _
      rw [hconv1, hconv2]
      have hmapeq : b.get_valid_moves.map
          (fun move => solve_worker_ff a (b.apply_move move).2 (cur ++ [move])) =
          b.get_valid_moves.map
          (fun move => solve_worker a (b.apply_move move).2 (cur ++ [move])) :=
        List.map_congr_left
          (fun m hm => (ih _ _ (apply_move_pegs b hWF m hm).2).symm)
      rw [hmapeq]
      have hK : ∀ r ∈ b.get_valid_moves.map
          (fun move => solve_worker a (b.apply_move move).2 (cur ++ [move])),
          r.1 + r.2.length = b.pegs_remaining + cur.length := by
        intro r hr
        obtain ⟨m, hm, rfl⟩ := List.mem_map.mp hr
        obtain ⟨hpegs, hWF'⟩ := apply_move_pegs b hWF m hm
        obtain ⟨e1, -⟩ := solve_worker_len a (b.apply_move m).2 (cur ++ [m]) hWF'
        have hlc : (cur ++ [m]).length = cur.length + 1 := by simp
        omega
      rw [foldl_best_eq_ff (b.pegs_remaining + cur.length) _ (none, cur) hK
        (fun bq h => absurd h (by simp))]

/-- C7: the sequential worker updates its best only on a strictly smaller
peg count; a tie keeps the first-found result.  The tie branch in the
source can never adopt a different candidate because results with equal
peg counts always have equal sequence lengths, so the worker agrees with
the variant whose reduction has no tie branch at all. -/
theorem solve_worker_tie_first_found (b : Board) (hWF : b.WF) (f : Nat)
    (cur : List Move) :
    solve_worker f b cur = solve_worker_ff f b cur :=
  solve_worker_eq_ff_aux f b cur hWF

/-- C7 witness: the two reductions agree on the 3-row board. -/
theorem solve_worker_tie_first_found_witness :
    solve_worker 6 (Board.init 3 0) [] = solve_worker_ff 6 (Board.init 3 0) [] :=
  solve_worker_tie_first_found (Board.init 3 0) (by decide) 6 []

/-! Section: Parallel solve versus sequential worker (claims C4, C5, C10) -/

/-- The per-branch board that `solve` builds (`Board(num_rows, 0)` whose
state is then overwritten by a copy) equals the original board when the
original is well-formed. -/
theorem next_board_eq (b : Board)
    (hgeom : b.num_holes = b.num_rows * (b.num_rows + 1) / 2) :
    (Board.mk b.num_rows (b.num_rows * (b.num_rows + 1) / 2) b.state) = b := by
  cases b with
  | mk nr nh st =>
    simp only [] at hgeom
    rw [← hgeom]

/-- The fan-out entry point computes exactly what the sequential worker
computes on the same board with an empty move sequence, for any
sufficient fuel. -/
theorem solve_eq_worker (b : Board) (hWF : b.WF) (f : Nat)
    (hf : b.pegs_remaining ≤ f) : solve b = solve_worker f b [] := by
  unfold solve solve_st
  by_cases hinit : b.get_valid_moves = []
  · rw [if_pos hinit]
    have hterm : b.is_game_over = true := (is_game_over_iff b).mpr hinit
    rw [solve_worker_terminal _ hterm]
  · rw [if_neg hinit]
    have hterm : ¬ b.is_game_over = true := fun h => hinit ((is_game_over_iff b).mp h)
    have hpos : 1 ≤ b.pegs_remaining := pegs_pos_of_moves b hinit
    obtain ⟨f', rfl⟩ : ∃ k, f = k + 1 := ⟨f - 1, by omega⟩
    rw [solve_worker]
    simp only []
    rw [if_neg hterm, if_neg hinit]
    have hlenb : b.pegs_remaining ≤ b.state.length := List.count_le_length true b.state
    have hmapeq : b.get_valid_moves.map (fun move =>
        solve_worker b.state.length
          ((Board.mk b.num_rows (b.num_rows * (b.num_rows + 1) / 2) b.state).apply_move
            move).2 [move]) =
        b.get_valid_moves.map (fun move =>
          solve_worker f' (b.apply_move move).2 ([] ++ [move])) := by
      refine List.map_congr_left ?_
      intro m hm
      rw [next_board_eq b hWF.1]
      obtain ⟨hpegs, hWF'⟩ := apply_move_pegs b hWF m hm
      rw [solve_worker_fuel b.state.length f' (b.apply_move m).2 [m] hWF'
        (by omega) (by omega)]
      rfl
    rw [hmapeq]
    have hconv : b.get_valid_moves.foldl
        (fun acc move => bestStep acc
          (solve_worker f' (b.apply_move move).2 ([] ++ [move]))) (none, []) =
        (b.get_valid_moves.map
          (fun move => solve_worker f' (b.apply_move move).2 ([] ++ [move]))).foldl
          bestStep (none, []) :=
      foldl_step_map _ bestStep _ _
    rw [hconv]

/-- C4: `Solver.solve` (the parallel entry point, deterministically
sequentialized in this embedding) reports the same `pegs_remaining` as the
sequential backtracking search `_solve_worker` started on the same board
with an empty move sequence. -/
theorem solve_pegs_eq_sequential (b : Board) (hWF : b.WF) (f : Nat)
    (hf : b.pegs_remaining ≤ f) :
    (solve b).1 = (solve_worker f b []).1 := by
  rw [solve_eq_worker b hWF f hf]

/-- C4 witness: both report 2 pegs on the 3-row board. -/
theorem solve_pegs_eq_sequential_witness :
    (solve (Board.init 3 0)).1 = (solve_worker 6 (Board.init 3 0) []).1 :=
  solve_pegs_eq_sequential (Board.init 3 0) (by decide) 6 (by decide)

/-- C5: after `solve` returns, the caller's board is exactly as before the
call: same `num_rows`, same `num_holes`, and the same peg occupancy at
every hole.  The state-threaded embedding `solve_st` returns the caller's
board alongside the result; it is unchanged. -/
theorem solve_preserves_board (b : Board) :
    (solve_st b).2.num_rows = b.num_rows ∧
    (solve_st b).2.num_holes = b.num_holes ∧
    (solve_st b).2.state = b.state := by
  unfold solve_st
  by_cases h : b.get_valid_moves = []
  · rw [if_pos h]
    exact ⟨rfl, rfl, rfl⟩
  · rw [if_neg h]
    exact ⟨rfl, rfl, rfl⟩

/-! Section: The search explores its whole subtree (claim C6) -/

theorem solve_worker_trace_terminal (b : Board) (hterm : b.is_game_over = true)
    (f : Nat) (cur : List Move) :
    solve_worker_trace f b cur = [(b.pegs_remaining, cur)] := by
  cases f with
  | zero => rfl
  | succ a => rw [solve_worker_trace, if_pos hterm]

theorem leafCount_terminal (b : Board) (hterm : b.is_game_over = true) (f : Nat) :
    leafCount f b = 1 := by
  cases f with
  | zero => rfl
  | succ a => rw [leafCount, if_pos hterm]

theorem trace_length_eq_leafCount (f : Nat) : ∀ (b : Board) (cur : List Move),
    (solve_worker_trace f b cur).length = leafCount f b := by
  induction f with
  | zero => intro b cur; rfl
  | succ a ih =>
    intro b cur
    by_cases hterm : b.is_game_over = true
    · rw [solve_worker_trace_terminal _ hterm, leafCount_terminal _ hterm]
      rfl
    · simp only [solve_worker_trace, leafCount]
      rw [if_neg hterm, if_neg hterm]
      have hconv : b.get_valid_moves.foldl
          (fun acc move => acc ++ solve_worker_trace a (b.apply_move move).2
            (cur ++ [move])) [] =
          [] ++ b.get_valid_moves.flatMap
            (fun move => solve_worker_trace a (b.apply_move move).2 (cur ++ [move])) :=
        foldl_append_flatMap _ _ (fun acc x => rfl) _ _
      rw [hconv, List.nil_append, List.flatMap_def, List.length_flatten, List.map_map]
      congr 1
      refine List.map_congr_left ?_
      intro m hm
      exact ih (b.apply_move m).2 (cur ++ [m])

theorem solve_worker_mem_trace (f : Nat) : ∀ (b : Board) (cur : List Move),
    solve_worker f b cur ∈ solve_worker_trace f b cur := by
  induction f with
  | zero =>
    intro b cur
    exact List.mem_singleton.mpr rfl
  | succ a ih =>
    intro b cur
    by_cases hterm : b.is_game_over = true
    · rw [solve_worker_terminal _ hterm, solve_worker_trace_terminal _ hterm]
      exact List.mem_singleton.mpr rfl
    · have hne : b.get_valid_moves ≠ [] := fun h => hterm ((is_game_over_iff b).mpr h)
      simp only [solve_worker, solve_worker_trace]
      rw [if_neg hterm, if_neg hterm, if_neg hne]
      have hconvW : b.get_valid_moves.foldl
          (fun acc move => bestStep acc
            (solve_worker a (b.apply_move move).2 (cur ++ [move]))) (none, cur) =
          (b.get_valid_moves.map
            (fun move => solve_worker a (b.apply_move move).2 (cur ++ [move]))).foldl
            bestStep (none, cur) :=
        foldl_step_map _ bestStep _ _
      have hconvT : b.get_valid_moves.foldl
          (fun acc move => acc ++ solve_worker_trace a (b.apply_move move).2
            (cur ++ [move])) [] =
          [] ++ b.get_valid_moves.flatMap
            (fun move => solve_worker_trace a (b.apply_move move).2 (cur ++ [move])) :=
        foldl_append_flatMap _ _ (fun acc x => rfl) _ _
      rw [hconvW, hconvT, List.nil_append]
      have hrs_ne : b.get_valid_moves.map
          (fun move => solve_worker a (b.apply_move move).2 (cur ++ [move])) ≠ [] :=
        fun hcon => hne (List.map_eq_nil_iff.mp hcon)
      obtain ⟨bp, hbp⟩ := Option.isSome_iff_exists.mp
        (foldl_bestStep_isSome _ (none, cur) hrs_ne)
      have hP : ∀ r ∈ b.get_valid_moves.map
          (fun move => solve_worker a (b.apply_move move).2 (cur ++ [move])),
          r ∈ b.get_valid_moves.flatMap
            (fun move => solve_worker_trace a (b.apply_move move).2 (cur ++ [move])) := by
        intro r hr
        obtain ⟨m, hm, rfl⟩ := List.mem_map.mp hr
        exact List.mem_flatMap.mpr ⟨m, hm, ih (b.apply_move m).2 (cur ++ [m])⟩
      have hspec := foldl_bestStep_spec
        (fun r => r ∈ b.get_valid_moves.flatMap
          (fun move => solve_worker_trace a (b.apply_move move).2 (cur ++ [move])))
        _ (none, cur) hP (fun bq h => absurd h (by simp)) bp hbp
      rw [hbp]
      simp only [Option.getD_some]
      exact hspec

/-- C6 (amended): the sequential worker has no early exit.  It visits
every terminal state of its subtree (the trace has exactly `leafCount`
entries, one per terminal, regardless of any 1-peg results found along
the way), and its returned result is one of the visited terminals. -/
theorem worker_explores_all_leaves (f : Nat) (b : Board) (cur : List Move) :
    (solve_worker_trace f b cur).length = leafCount f b ∧
    solve_worker f b cur ∈ solve_worker_trace f b cur :=
  ⟨trace_length_eq_leafCount f b cur, solve_worker_mem_trace f b cur⟩

/-- C6 counterexample: on a 4-row board with pegs in holes 1, 4 and 5, the
depth-first worker reaches a 1-peg terminal as the second of three visited
terminals and still explores the remaining sibling, so the visited peg
counts are [2, 1, 1] and a 1-peg result occurs strictly before the last
visit. -/
theorem one_peg_early_exit_counterexample :
    ((solve_worker_trace 11
        (⟨4, 10, [false, true, false, false, true, true, false, false, false, false]⟩ :
          Board) []).map Prod.fst = [2, 1, 1]) ∧
    ¬ (∀ r ∈ (solve_worker_trace 11
        (⟨4, 10, [false, true, false, false, true, true, false, false, false, false]⟩ :
          Board) []).dropLast, r.1 ≠ 1) := by
  constructor
  · rfl
  · decide

/-! Section: Soundness of the returned solution (claim C10) -/

theorem solve_worker_sound (f : Nat) : ∀ (b : Board) (cur : List Move), b.WF →
    b.pegs_remaining ≤ f →
    ∃ p t, solve_worker f b cur = (p, cur ++ t) ∧
      (replay b t).1 = true ∧
      ((replay b t).2).is_game_over = true ∧
      ((replay b t).2).pegs_remaining = p ∧
      p + t.length = b.pegs_remaining := by
  induction f with
  | zero =>
    intro b cur hWF hf
    have hterm := game_over_of_pegs_zero b (by omega)
    exact ⟨b.pegs_remaining, [], by rw [List.append_nil]; rfl, rfl, hterm, rfl, by simp⟩
  | succ a ih =>
    intro b cur hWF hf
    by_cases hterm : b.is_game_over = true
    · rw [solve_worker_terminal _ hterm]
      exact ⟨b.pegs_remaining, [], by rw [List.append_nil], rfl, hterm, rfl, by simp⟩
    · have hne : b.get_valid_moves ≠ [] := fun h => hterm ((is_game_over_iff b).mpr h)
      simp only [solve_worker]
      rw [if_neg hterm, if_neg hne]
      have hconv : b.get_valid_moves.foldl
          (fun acc move => bestStep acc
            (solve_worker a (b.apply_move move).2 (cur ++ [move]))) (none, cur) =
          (b.get_valid_moves.map
            (fun move => solve_worker a (b.apply_move move).2 (cur ++ [move]))).foldl
            bestStep (none, cur) :=
        foldl_step_map _ bestStep _ _
      rw [hconv]
      have hrs_ne : b.get_valid_moves.map
          (fun move => solve_worker a (b.apply_move move).2 (cur ++ [move])) ≠ [] :=
        fun hcon => hne (List.map_eq_nil_iff.mp hcon)
      obtain ⟨bp, hbp⟩ := Option.isSome_iff_exists.mp
        (foldl_bestStep_isSome _ (none, cur) hrs_ne)
      have hP : ∀ r ∈ b.get_valid_moves.map
          (fun move => solve_worker a (b.apply_move move).2 (cur ++ [move])),
          ∃ t, r.2 = cur ++ t ∧ (replay b t).1 = true ∧
            ((replay b t).2).is_game_over = true ∧
            ((replay b t).2).pegs_remaining = r.1 ∧
            r.1 + t.length = b.pegs_remaining := by
        intro r hr
        obtain ⟨m, hm, rfl⟩ := List.mem_map.mp hr
        have hv := (valid_move_facts b hWF m hm).1
        obtain ⟨hpegs, hWF'⟩ := apply_move_pegs b hWF m hm
        obtain ⟨p', t', he, h1, h2, h3, h4⟩ :=
          ih (b.apply_move m).2 (cur ++ [m]) hWF' (by omega)
        refine ⟨m :: t', ?_, ?_, ?_, ?_, ?_⟩
        · rw [he]
          show (cur ++ [m]) ++ t' = cur ++ (m :: t')
          rw [List.append_assoc]
          rfl
        · simp only [replay]
          rw [(apply_move_effects b m hv).1, h1]
          rfl
        · simp only [replay]
          exact h2
        · simp only [replay]
          rw [he]
          exact h3
        · rw [he]
          show p' + (t'.length + 1) = b.pegs_remaining
          omega
      have hspec := foldl_bestStep_spec
        (fun r => ∃ t, r.2 = cur ++ t ∧ (replay b t).1 = true ∧
          ((replay b t).2).is_game_over = true ∧
          ((replay b t).2).pegs_remaining = r.1 ∧
          r.1 + t.length = b.pegs_remaining)
        _ (none, cur) hP (fun bq h => absurd h (by simp)) bp hbp
      obtain ⟨t, ht, h1, h2, h3, h4⟩ := hspec
      rw [hbp]
      simp only [Option.getD_some]
      refine ⟨bp, t, ?_, h1, h2, h3, h4⟩
      rw [show ((b.get_valid_moves.map
        (fun move => solve_worker a (b.apply_move move).2 (cur ++ [move]))).foldl
        bestStep (none, cur)).2 = cur ++ t from ht]

/-- C10: the pair returned by `solve` is self-consistent — replaying the
returned moves in order on the initial board makes every `apply_move`
call return `true` and ends in a terminal board with exactly the reported
number of pegs; the reported count plus the number of moves equals the
initial peg count. -/
theorem solve_result_consistent (b : Board) (hWF : b.WF) :
    (replay b (solve b).2).1 = true ∧
    ((replay b (solve b).2).2).is_game_over = true ∧
    ((replay b (solve b).2).2).pegs_remaining = (solve b).1 ∧
    (solve b).1 + (solve b).2.length = b.pegs_remaining := by
  have heq := solve_eq_worker b hWF b.pegs_remaining le_rfl
  obtain ⟨p, t, he, h1, h2, h3, h4⟩ :=
    solve_worker_sound b.pegs_remaining b [] hWF le_rfl
  rw [heq, he]
  exact ⟨h1, h2, h3, h4⟩

/-- C10 witness: the solver's answer on the 3-row board replays cleanly. -/
theorem solve_result_consistent_witness :
    (Board.init 3 0).WF ∧
      (replay (Board.init 3 0) (solve (Board.init 3 0)).2).1 = true :=
  ⟨by decide, (solve_result_consistent (Board.init 3 0) (by decide)).1⟩

end PegGame
